import Mathlib

/-!
Shallow embedding of `github-status.py`, a terminal dashboard that renders
three tables (notifications, open PRs, assigned items) from GitHub API data.
The definitions below mirror the source's three response transformers
(`report_notifications`, `report_open_prs`, `report_assigned`), the
notification tracking-token construction, and the `__main__` token retrieval.
Python's in-place effects (`list.sort`, dictionary key insertion) are modelled
by returning the post-state of the mutated argument explicitly.
-/

namespace GithubStatus

/-! ## A stable sort

Python's `list.sort` is a stable comparison sort.  We model it with a stable
insertion sort: each element is inserted after every already-placed element
that compares less-or-equal, so ties keep their original relative order, as
in CPython.  The functions are structurally recursive so that concrete runs
evaluate inside the kernel. -/

def stableInsert (le : α → α → Bool) (x : α) : List α → List α
  | [] => [x]
  | y :: ys => if le y x then y :: stableInsert le x ys else x :: y :: ys

def stableSort (le : α → α → Bool) (l : List α) : List α :=
  l.foldl (fun acc x => stableInsert le x acc) []

theorem stableInsert_perm (le : α → α → Bool) (x : α) (l : List α) :
    (stableInsert le x l).Perm (x :: l) := by
  induction l with
  | nil => exact List.Perm.refl _
  | cons y ys ih =>
    by_cases h : le y x = true
    · simp only [stableInsert, h, if_true]
      exact (ih.cons y).trans (List.Perm.swap x y ys)
    · have hins : stableInsert le x (y :: ys) = x :: y :: ys := by
        simp [stableInsert, h]
      rw [hins]

theorem stableSort_foldl_perm (le : α → α → Bool) :
    ∀ (l acc : List α),
      (List.foldl (fun acc x => stableInsert le x acc) acc l).Perm (acc ++ l) := by
  intro l
  induction l with
  | nil => intro acc; simp
  | cons x xs ih =>
    intro acc
    have h1 := ih (stableInsert le x acc)
    have h2 : (stableInsert le x acc ++ xs).Perm (acc ++ x :: xs) := by
      refine ((stableInsert_perm le x acc).append_right xs).trans ?_
      exact List.perm_middle.symm
    exact (h1.trans h2)

theorem stableSort_perm (le : α → α → Bool) (l : List α) :
    (stableSort le l).Perm l := by
  simpa [stableSort] using stableSort_foldl_perm le l []

theorem mem_stableInsert {le : α → α → Bool} {x z : α} {l : List α}
    (h : z ∈ stableInsert le x l) : z = x ∨ z ∈ l := by
  have := (stableInsert_perm le x l).mem_iff.mp h
  simpa using this

theorem stableInsert_pairwise {le : α → α → Bool}
    (htrans : ∀ a b c, le a b = true → le b c = true → le a c = true)
    (htotal : ∀ a b, le a b = true ∨ le b a = true)
    (x : α) :
    ∀ l : List α, (List.Pairwise (fun a b => le a b = true) l) →
      List.Pairwise (fun a b => le a b = true) (stableInsert le x l) := by
  intro l
  induction l with
  | nil => intro _; simp [stableInsert]
  | cons y ys ih =>
    intro hp
    rw [List.pairwise_cons] at hp
    obtain ⟨hy, hys⟩ := hp
    by_cases h : le y x = true
    · simp only [stableInsert, h, if_true]
      rw [List.pairwise_cons]
      refine ⟨?_, ih hys⟩
      intro z hz
      rcases mem_stableInsert hz with rfl | hz'
      · exact h
      · exact hy z hz'
    · have hins : stableInsert le x (y :: ys) = x :: y :: ys := by
        simp [stableInsert, h]
      rw [hins]
      have hxy : le x y = true := by
        rcases htotal x y with h' | h'
        · exact h'
        · exact absurd h' h
      rw [List.pairwise_cons]
      constructor
      · intro z hz
        rcases List.mem_cons.mp hz with rfl | hz'
        · exact hxy
        · exact htrans x y z hxy (hy z hz')
      · exact List.pairwise_cons.mpr ⟨hy, hys⟩

theorem stableSort_sorted {le : α → α → Bool}
    (htrans : ∀ a b c, le a b = true → le b c = true → le a c = true)
    (htotal : ∀ a b, le a b = true ∨ le b a = true)
    (l : List α) :
    List.Pairwise (fun a b => le a b = true) (stableSort le l) := by
  have key : ∀ (l acc : List α),
      List.Pairwise (fun a b => le a b = true) acc →
      List.Pairwise (fun a b => le a b = true)
        (List.foldl (fun acc x => stableInsert le x acc) acc l) := by
    intro l
    induction l with
    | nil => intro acc h; simpa using h
    | cons x xs ih =>
      intro acc h
      exact ih _ (stableInsert_pairwise htrans htotal x acc h)
  exact key l [] List.Pairwise.nil

/-! ## String comparison

Python compares `str` values lexicographically by code point; Lean's `String`
order is the same order on the underlying character list. -/

def strLe (a b : String) : Bool := decide (a.data ≤ b.data)

theorem strLe_iff {a b : String} : strLe a b = true ↔ a ≤ b := by
  rw [strLe, decide_eq_true_iff]
  exact String.le_iff_toList_le.symm

theorem strLe_total : ∀ a b : String, strLe a b = true ∨ strLe b a = true := by
  intro a b
  rcases le_total a b with h | h
  · exact Or.inl (strLe_iff.mpr h)
  · exact Or.inr (strLe_iff.mpr h)

theorem strLe_trans : ∀ a b c : String,
    strLe a b = true → strLe b c = true → strLe a c = true :=
  fun _ _ _ h1 h2 => strLe_iff.mpr (le_trans (strLe_iff.mp h1) (strLe_iff.mp h2))

/-! ## Notifications (`report_notifications`, lines 116-141)

A REST notification as consumed by the code: only the fields the function
reads are modelled.  The function sorts the caller's list in place by
`updated_at`, then emits one table row per notification whose repository
owner login belongs to `orgs`.  The model returns the pair
(post-state of the mutated `rows` argument, list of emitted rows). -/

structure NotifRow where
  id : String
  updated_at : String
  ownerLogin : String
  repoName : String
  subjectTitle : String
  subjectUrl : String
  subjectType : String
  reason : String
  deriving Repr, DecidableEq

def notifLe (a b : NotifRow) : Bool := strLe a.updated_at b.updated_at

def report_notifications (rows : List NotifRow) (orgs : List String) :
    List NotifRow × List NotifRow :=
  let sorted := stableSort notifLe rows
  (sorted, sorted.filter (fun row => decide (row.ownerLogin ∈ orgs)))

theorem notifLe_trans : ∀ a b c : NotifRow,
    notifLe a b = true → notifLe b c = true → notifLe a c = true :=
  fun _ _ _ h1 h2 => strLe_trans _ _ _ h1 h2

theorem notifLe_total : ∀ a b : NotifRow, notifLe a b = true ∨ notifLe b a = true :=
  fun a b => strLe_total a.updated_at b.updated_at

/-! ## Open PRs (`report_open_prs`, lines 143-194)

A PR search node.  `commits` holds the `commits.nodes` list, each entry
being the commit's `statusCheckRollup.state` (`none` when the rollup is
null in the JSON).  `reviewDecision` is nullable.  `latestReviews` holds
the review states, `reviewRequests` the requested reviewer logins. -/

structure PrRow where
  number : Nat
  repoName : String
  title : String
  url : String
  headRefName : String
  updatedAt : String
  isDraft : Bool
  mergeable : String
  reviewDecision : Option String
  commits : List (Option String)
  latestReviews : List String
  reviewRequests : List (Option String)
  deriving Repr, DecidableEq

/-- The lookup `row['commits']['nodes'][0]['commit']['statusCheckRollup']['state']`
(line 158): `none` models the raised `IndexError`/`TypeError` when the node
list is empty or the rollup is null. -/
def rolledupStatus (row : PrRow) : Option String :=
  match row.commits with
  | [] => none
  | c :: _ => c

/-- Lines 156-164: the rollup state is read unconditionally before
`mergeable` is examined, so a missing rollup is an error even when
`mergeable` alone would decide the icon. -/
def ci_status (row : PrRow) : Option String :=
  match rolledupStatus row with
  | none => none
  | some st =>
    some (if row.mergeable ≠ "MERGEABLE" then "❌"
          else if st = "PENDING" then "🟡"
          else if st ≠ "SUCCESS" then "❌"
          else "✅")

/-- Lines 166-182: sequential reassignment of `review_status`.  The draft
check only replaces the initial fall-through value; the decision / latest
review / review request logic runs afterwards and can overwrite it. -/
def review_status (row : PrRow) : String :=
  let fallthrough := if row.isDraft then "" else "❔"
  if row.reviewDecision = some "APPROVED" then "✅"
  else
    match row.latestReviews with
    | [] => if row.reviewRequests.length ≠ 0 then "🟡" else fallthrough
    | st :: _ =>
      if st = "APPROVED" then "✅"
      else if st = "CHANGES_REQUESTED" then "❌"
      else fallthrough

def prLe (a b : PrRow) : Bool := strLe a.updatedAt b.updatedAt

/-- One rendered table row of the Open PRs table. -/
structure PrOut where
  repoName : String
  number : Nat
  isDraft : Bool
  ci : String
  review : String
  title : String
  url : String
  headRefName : String
  updatedAt : String
  deriving Repr, DecidableEq

def prRender (row : PrRow) : Option PrOut :=
  match ci_status row with
  | none => none
  | some ci =>
    some ⟨row.repoName, row.number, row.isDraft, ci, review_status row,
          row.title, row.url, row.headRefName, row.updatedAt⟩

/-- The rendering loop: rows are processed in order and the first failing
rollup lookup aborts the whole table. -/
def mapMOpt (f : α → Option β) : List α → Option (List β)
  | [] => some []
  | x :: xs =>
    match f x with
    | none => none
    | some y =>
      match mapMOpt f xs with
      | none => none
      | some ys => some (y :: ys)

/-- Model of `report_open_prs`: the caller's node list is sorted in place,
then each row is rendered; a failing rollup lookup aborts the whole table
(`none`).  Returns (post-state of the argument, rendered table). -/
def report_open_prs (rows : List PrRow) : List PrRow × Option (List PrOut) :=
  let sorted := stableSort prLe rows
  (sorted, mapMOpt prRender sorted)

theorem prLe_trans : ∀ a b c : PrRow,
    prLe a b = true → prLe b c = true → prLe a c = true :=
  fun _ _ _ h1 h2 => strLe_trans _ _ _ h1 h2

theorem prLe_total : ∀ a b : PrRow, prLe a b = true ∨ prLe b a = true :=
  fun a b => strLe_total a.updatedAt b.updatedAt

/-! ## Assigned items (`report_assigned`, lines 196-233) -/

/-- A `CrossReferencedEvent` timeline node: `willCloseTarget` plus the
source PR's number and url. -/
structure CrossRef where
  willCloseTarget : Bool
  sourceNumber : Nat
  sourceUrl : String
  deriving Repr, DecidableEq

structure AssignedRow where
  number : Nat
  repoName : String
  title : String
  url : String
  updatedAt : String
  labels : List String
  timelineItems : Option (List CrossRef)
  deriving Repr, DecidableEq

/-- Lines 199-205: the loop over `cross_refs['nodes']` overwrites
`closing_pr` on every event with `willCloseTarget` set and never breaks,
so the value kept is the LAST such event.  `none` models both an absent /
falsy `timelineItems` entry and the case of no matching event. -/
def closing_pr (row : AssignedRow) : Option (Nat × String) :=
  match row.timelineItems with
  | none => none
  | some items =>
    items.foldl
      (fun acc item =>
        if item.willCloseTarget then some (item.sourceNumber, item.sourceUrl)
        else acc)
      none

/-- Line 206: `any('blocked' in l['name'] for l in row['labels']['nodes'])`,
a case-sensitive substring test. -/
def blocked (row : AssignedRow) : Bool :=
  row.labels.any (fun name => decide ("blocked".data <:+: name.data))

/-- The row dictionary after the loop wrote the two derived keys into it. -/
structure AssignedAug where
  row : AssignedRow
  closing_pr : Option (Nat × String)
  blocked : Bool
  deriving Repr, DecidableEq

def augment (row : AssignedRow) : AssignedAug :=
  ⟨row, closing_pr row, blocked row⟩

/-- Python `False < True`. -/
def boolLt (a b : Bool) : Bool := !a && b

/-- The sort key tuple of line 208:
`(row['closing_pr'] is None, not row['blocked'], row['updatedAt'])`. -/
def assignedKey (a : AssignedAug) : Bool × Bool × String :=
  (a.closing_pr.isNone, !a.blocked, a.row.updatedAt)

/-- Python's ascending lexicographic order on such triples. -/
def keyLe (x y : Bool × Bool × String) : Bool :=
  boolLt x.1 y.1 ||
    (x.1 == y.1 &&
      (boolLt x.2.1 y.2.1 || (x.2.1 == y.2.1 && strLe x.2.2 y.2.2)))

def assignedLe (a b : AssignedAug) : Bool := keyLe (assignedKey a) (assignedKey b)

/-- Model of `report_assigned`: write `closing_pr` and `blocked` into every
row, then sort the caller's list in place by the composite key.  The result
is both the post-state of the argument and the order of the emitted rows. -/
def report_assigned (rows : List AssignedRow) : List AssignedAug :=
  stableSort assignedLe (rows.map augment)

theorem keyLe_total : ∀ x y : Bool × Bool × String,
    keyLe x y = true ∨ keyLe y x = true := by
  rintro ⟨a1, a2, s1⟩ ⟨b1, b2, s2⟩
  cases a1 <;> cases b1 <;> cases a2 <;> cases b2 <;>
    simp [keyLe, boolLt] <;> exact strLe_total s1 s2

theorem keyLe_trans : ∀ x y z : Bool × Bool × String,
    keyLe x y = true → keyLe y z = true → keyLe x z = true := by
  rintro ⟨a1, a2, s1⟩ ⟨b1, b2, s2⟩ ⟨c1, c2, s3⟩ h1 h2
  cases a1 <;> cases b1 <;> cases c1 <;> cases a2 <;> cases b2 <;> cases c2 <;>
    simp_all [keyLe, boolLt] <;> exact strLe_trans _ _ _ h1 h2

theorem assignedLe_trans : ∀ a b c : AssignedAug,
    assignedLe a b = true → assignedLe b c = true → assignedLe a c = true :=
  fun _ _ _ h1 h2 => keyLe_trans _ _ _ h1 h2

theorem assignedLe_total : ∀ a b : AssignedAug,
    assignedLe a b = true ∨ assignedLe b a = true :=
  fun _ _ => keyLe_total _ _

/-! ## The notification tracking token (lines 114-132)

`base64.b64encode(MAGIC_BITS + f"{id}:{user_id}".encode()).decode().rstrip('=')`:
the fixed eight magic bytes, followed by the UTF-8 bytes of
`"<notification id>:<decimal viewer id>"`, base64-encoded with the standard
alphabet and the trailing padding stripped. -/

/-- Decimal rendering, fuel-structured so the kernel evaluates it; the fuel
`n + 1` always suffices since `n / 10 < n` for `n ≥ 10`. -/
def natReprAux : Nat → Nat → List Char
  | 0, _ => []
  | fuel + 1, n =>
    if n < 10 then [Char.ofNat (48 + n)]
    else natReprAux fuel (n / 10) ++ [Char.ofNat (48 + n % 10)]

/-- Decimal rendering of a natural number, as Python's `f"{user_id}"`. -/
def natRepr (n : Nat) : List Char := natReprAux (n + 1) n

/-- The standard base64 alphabet, by six-bit value. -/
def b64char (n : Nat) : Char :=
  if n < 26 then Char.ofNat (65 + n)
  else if n < 52 then Char.ofNat (97 + (n - 26))
  else if n < 62 then Char.ofNat (48 + (n - 52))
  else if n = 62 then '+'
  else '/'

/-- Inverse alphabet lookup, used by the checking decoder. -/
def b64val (c : Char) : Option Nat :=
  if 65 ≤ c.toNat ∧ c.toNat ≤ 90 then some (c.toNat - 65)
  else if 97 ≤ c.toNat ∧ c.toNat ≤ 122 then some (c.toNat - 97 + 26)
  else if 48 ≤ c.toNat ∧ c.toNat ≤ 57 then some (c.toNat - 48 + 52)
  else if c = '+' then some 62
  else if c = '/' then some 63
  else none

/-- Standard base64 of a byte list, with `=` padding, as
`base64.b64encode`. -/
def b64encode : List Nat → List Char
  | b1 :: b2 :: b3 :: rest =>
    b64char (b1 / 4) :: b64char (b1 % 4 * 16 + b2 / 16) ::
      b64char (b2 % 16 * 4 + b3 / 64) :: b64char (b3 % 64) :: b64encode rest
  | [b1, b2] =>
    [b64char (b1 / 4), b64char (b1 % 4 * 16 + b2 / 16), b64char (b2 % 16 * 4), '=']
  | [b1] => [b64char (b1 / 4), b64char (b1 % 4 * 16), '=', '=']
  | [] => []

/-- Base64 decoding of a correctly padded string; `none` on malformed
input. -/
def b64decode : List Char → Option (List Nat)
  | c1 :: c2 :: c3 :: c4 :: rest =>
    match b64val c1, b64val c2 with
    | some v1, some v2 =>
      if c3 = '=' then
        if c4 = '=' ∧ rest = [] then some [v1 * 4 + v2 / 16] else none
      else
        match b64val c3 with
        | some v3 =>
          if c4 = '=' then
            if rest = [] then some [v1 * 4 + v2 / 16, v2 % 16 * 16 + v3 / 4]
            else none
          else
            match b64val c4 with
            | some v4 =>
              match b64decode rest with
              | some bs =>
                some ((v1 * 4 + v2 / 16) :: (v2 % 16 * 16 + v3 / 4) ::
                      (v3 % 4 * 64 + v4) :: bs)
              | none => none
            | none => none
        | none => none
    | _, _ => none
  | [] => some []
  | _ => none

/-- Python's `.rstrip('=')`. -/
def stripEq (s : List Char) : List Char :=
  (s.reverse.dropWhile (fun c => c == '=')).reverse

/-- Re-padding a stripped base64 string to a multiple of four characters. -/
def repad (s : List Char) : List Char :=
  s ++ List.replicate ((4 - s.length % 4) % 4) '='

/-- UTF-8 encoding of one character (`str.encode`), written with division
and remainder so the kernel evaluates it. -/
def utf8EncodeChar (c : Char) : List Nat :=
  let v := c.toNat
  if v < 128 then [v]
  else if v < 2048 then [192 + v / 64, 128 + v % 64]
  else if v < 65536 then [224 + v / 4096, 128 + v / 64 % 64, 128 + v % 64]
  else [240 + v / 262144, 128 + v / 4096 % 64, 128 + v / 64 % 64, 128 + v % 64]

def utf8Encode : List Char → List Nat
  | [] => []
  | c :: s => utf8EncodeChar c ++ utf8Encode s

/-- Decode one UTF-8 character from the head of a byte list, returning the
rest. -/
def utf8DecodeOne : List Nat → Option (Char × List Nat)
  | [] => none
  | b :: rest =>
    if b < 128 then some (Char.ofNat b, rest)
    else if b < 192 then none
    else if b < 224 then
      match rest with
      | b2 :: rest2 =>
        if 128 ≤ b2 ∧ b2 < 192 then
          some (Char.ofNat ((b - 192) * 64 + (b2 - 128)), rest2)
        else none
      | [] => none
    else if b < 240 then
      match rest with
      | b2 :: b3 :: rest3 =>
        if (128 ≤ b2 ∧ b2 < 192) ∧ (128 ≤ b3 ∧ b3 < 192) then
          some (Char.ofNat ((b - 224) * 4096 + (b2 - 128) * 64 + (b3 - 128)), rest3)
        else none
      | _ => none
    else
      match rest with
      | b2 :: b3 :: b4 :: rest4 =>
        if (128 ≤ b2 ∧ b2 < 192) ∧ (128 ≤ b3 ∧ b3 < 192) ∧ (128 ≤ b4 ∧ b4 < 192) then
          some (Char.ofNat ((b - 240) * 262144 + (b2 - 128) * 4096 +
            (b3 - 128) * 64 + (b4 - 128)), rest4)
        else none
      | _ => none

/-- Decode a whole byte list; the fuel bounds the number of characters and
the byte length is always enough. -/
def utf8DecodeAux : Nat → List Nat → Option (List Char)
  | _, [] => some []
  | 0, _ :: _ => none
  | fuel + 1, b :: rest =>
    (utf8DecodeOne (b :: rest)).bind
      (fun p => (utf8DecodeAux fuel p.2).map (fun cs => p.1 :: cs))

/-- UTF-8 decoding, used to certify that `utf8Encode` is injective. -/
def utf8Decode (l : List Nat) : Option (List Char) := utf8DecodeAux l.length l

/-- `MAGIC_BITS = b'\x93\x00\xCE\x00\x67\x82\xa6\xb3'` (line 115). -/
def MAGIC_BITS : List Nat := [0x93, 0x00, 0xCE, 0x00, 0x67, 0x82, 0xa6, 0xb3]

/-- The bytes handed to `base64.b64encode` on line 131. -/
def notifBytes (id : String) (userId : Nat) : List Nat :=
  MAGIC_BITS ++ utf8Encode (id.data ++ ':' :: natRepr userId)

/-- The tracking token of line 131: base64 of `notifBytes`, trailing `=`
stripped. -/
def notification_token (id : String) (userId : Nat) : List Char :=
  stripEq (b64encode (notifBytes id userId))

/-! ## Token retrieval (`__main__`, lines 236-239)

`subprocess.run(["gh", "auth", "token"], ...)`, `assert out.returncode == 0`,
then `out.stdout.decode('utf-8').strip()`.  The helper's observable behavior
is its exit code and its standard output; the assert aborts the run on a
non-zero exit code and nothing else is checked. -/

/-- Python's `str.strip()`: drop whitespace from both ends. -/
def pyStrip (s : String) : String :=
  ⟨((s.data.dropWhile Char.isWhitespace).reverse.dropWhile Char.isWhitespace).reverse⟩

/-- `none` models the `AssertionError` abort; `some tok` a run that
proceeds to the network calls with bearer token `tok`. -/
def getToken (returncode : Int) (stdout : String) : Option String :=
  if returncode = 0 then some (pyStrip stdout) else none

/-! ## Base64 correctness -/

theorem b64val_b64char : ∀ n, n < 64 → b64val (b64char n) = some n := by decide

theorem b64char_ne_pad : ∀ n, n < 64 → ¬b64char n = '=' := by decide

/-- Every base64 output splits into alphabet characters followed by at most
two padding characters, with total length a multiple of four. -/
theorem b64encode_decomp : ∀ bs : List Nat, (∀ b ∈ bs, b < 256) →
    ∃ t k, b64encode bs = t ++ List.replicate k '=' ∧ k ≤ 2 ∧
      (∀ c ∈ t, ¬c = '=') ∧ (t.length + k) % 4 = 0 := by
  intro bs
  induction bs using b64encode.induct with
  | case1 b1 b2 b3 rest ih =>
    intro h
    have hb1 : b1 < 256 := h b1 (by simp)
    have hb2 : b2 < 256 := h b2 (by simp)
    have hb3 : b3 < 256 := h b3 (by simp)
    obtain ⟨t, k, ht, hk, htc, hlen⟩ := ih (fun b hb => h b (by simp [hb]))
    refine ⟨b64char (b1 / 4) :: b64char (b1 % 4 * 16 + b2 / 16) ::
      b64char (b2 % 16 * 4 + b3 / 64) :: b64char (b3 % 64) :: t, k, ?_, hk, ?_, ?_⟩
    · simp [b64encode, ht]
    · intro c hc
      simp only [List.mem_cons] at hc
      rcases hc with rfl | rfl | rfl | rfl | hc
      · exact b64char_ne_pad _ (by omega)
      · exact b64char_ne_pad _ (by omega)
      · exact b64char_ne_pad _ (by omega)
      · exact b64char_ne_pad _ (by omega)
      · exact htc c hc
    · simp only [List.length_cons]
      omega
  | case2 b1 b2 =>
    intro h
    have hb1 : b1 < 256 := h b1 (by simp)
    have hb2 : b2 < 256 := h b2 (by simp)
    refine ⟨[b64char (b1 / 4), b64char (b1 % 4 * 16 + b2 / 16),
      b64char (b2 % 16 * 4)], 1, ?_, by omega, ?_, by simp⟩
    · simp [b64encode]
    · intro c hc
      simp only [List.mem_cons, List.not_mem_nil, or_false] at hc
      rcases hc with rfl | rfl | rfl
      · exact b64char_ne_pad _ (by omega)
      · exact b64char_ne_pad _ (by omega)
      · exact b64char_ne_pad _ (by omega)
  | case3 b1 =>
    intro h
    have hb1 : b1 < 256 := h b1 (by simp)
    refine ⟨[b64char (b1 / 4), b64char (b1 % 4 * 16)], 2, ?_, by omega, ?_, by simp⟩
    · simp [b64encode]
    · intro c hc
      simp only [List.mem_cons, List.not_mem_nil, or_false] at hc
      rcases hc with rfl | rfl
      · exact b64char_ne_pad _ (by omega)
      · exact b64char_ne_pad _ (by omega)
  | case4 =>
    intro _
    exact ⟨[], 0, rfl, by omega, by simp, by simp⟩

/-- `rstrip('=')` removes exactly the padding block. -/
theorem stripEq_spec : ∀ (t : List Char) (k : Nat), (∀ c ∈ t, ¬c = '=') →
    stripEq (t ++ List.replicate k '=') = t := by
  intro t k htc
  unfold stripEq
  rw [List.reverse_append, List.reverse_replicate, List.dropWhile_append]
  have hrep : List.dropWhile (fun c => c == '=') (List.replicate k '=') = [] := by
    simp [List.dropWhile_replicate]
  have hself : List.dropWhile (fun c => c == '=') t.reverse = t.reverse := by
    rw [List.dropWhile_eq_self_iff]
    intro hl
    have hmem : t.reverse.get ⟨0, hl⟩ ∈ t.reverse := List.get_mem _ _ _
    have hmem2 : t.reverse.get ⟨0, hl⟩ ∈ t := List.mem_reverse.mp hmem
    simpa using htc _ hmem2
  rw [hrep]
  simp only [List.isEmpty_nil, if_true]
  rw [hself, List.reverse_reverse]

/-- Re-padding a stripped encoding restores it exactly. -/
theorem repad_stripEq : ∀ bs : List Nat, (∀ b ∈ bs, b < 256) →
    repad (stripEq (b64encode bs)) = b64encode bs := by
  intro bs h
  obtain ⟨t, k, ht, hk, htc, hlen⟩ := b64encode_decomp bs h
  rw [ht, stripEq_spec t k htc, repad]
  have : (4 - t.length % 4) % 4 = k := by omega
  rw [this]

/-- The checking decoder inverts the encoder on byte input. -/
theorem b64decode_b64encode : ∀ bs : List Nat, (∀ b ∈ bs, b < 256) →
    b64decode (b64encode bs) = some bs := by
  intro bs
  induction bs using b64encode.induct with
  | case1 b1 b2 b3 rest ih =>
    intro h
    have hb1 : b1 < 256 := h b1 (by simp)
    have hb2 : b2 < 256 := h b2 (by simp)
    have hb3 : b3 < 256 := h b3 (by simp)
    have hrest := ih (fun b hb => h b (by simp [hb]))
    have e1 : b64val (b64char (b1 / 4)) = some (b1 / 4) := b64val_b64char _ (by omega)
    have e2 : b64val (b64char (b1 % 4 * 16 + b2 / 16)) = some (b1 % 4 * 16 + b2 / 16) :=
      b64val_b64char _ (by omega)
    have e3 : b64val (b64char (b2 % 16 * 4 + b3 / 64)) = some (b2 % 16 * 4 + b3 / 64) :=
      b64val_b64char _ (by omega)
    have e4 : b64val (b64char (b3 % 64)) = some (b3 % 64) := b64val_b64char _ (by omega)
    have h3 : ¬b64char (b2 % 16 * 4 + b3 / 64) = '=' := b64char_ne_pad _ (by omega)
    have h4 : ¬b64char (b3 % 64) = '=' := b64char_ne_pad _ (by omega)
    simp only [b64encode, b64decode, e1, e2, e3, e4, if_neg h3, if_neg h4, hrest,
      Option.some.injEq, List.cons.injEq]
    refine ⟨by omega, by omega, by omega, trivial⟩
  | case2 b1 b2 =>
    intro h
    have hb1 : b1 < 256 := h b1 (by simp)
    have hb2 : b2 < 256 := h b2 (by simp)
    have e1 : b64val (b64char (b1 / 4)) = some (b1 / 4) := b64val_b64char _ (by omega)
    have e2 : b64val (b64char (b1 % 4 * 16 + b2 / 16)) = some (b1 % 4 * 16 + b2 / 16) :=
      b64val_b64char _ (by omega)
    have e3 : b64val (b64char (b2 % 16 * 4)) = some (b2 % 16 * 4) :=
      b64val_b64char _ (by omega)
    have h3 : ¬b64char (b2 % 16 * 4) = '=' := b64char_ne_pad _ (by omega)
    simp only [b64encode, b64decode, e1, e2, e3, if_neg h3, if_pos rfl, if_true,
      Option.some.injEq, List.cons.injEq]
    refine ⟨by omega, by omega, trivial⟩
  | case3 b1 =>
    intro h
    have hb1 : b1 < 256 := h b1 (by simp)
    have e1 : b64val (b64char (b1 / 4)) = some (b1 / 4) := b64val_b64char _ (by omega)
    have e2 : b64val (b64char (b1 % 4 * 16)) = some (b1 % 4 * 16) :=
      b64val_b64char _ (by omega)
    simp only [b64encode, b64decode, e1, e2, if_pos rfl, and_self, if_true,
      Option.some.injEq, List.cons.injEq]
    exact ⟨by omega, trivial⟩
  | case4 =>
    intro _
    rfl

/-! ## UTF-8 correctness -/

theorem char_toNat_lt (c : Char) : c.toNat < 1114112 := by
  have h : c.val.toNat.isValidChar := c.valid
  rcases h with h | h
  · exact Nat.lt_trans h (by norm_num)
  · exact h.2

theorem utf8EncodeChar_lt (c : Char) : ∀ b ∈ utf8EncodeChar c, b < 256 := by
  have hv := char_toNat_lt c
  intro b hb
  by_cases h1 : c.toNat < 128
  · simp [utf8EncodeChar, h1] at hb
    omega
  · by_cases h2 : c.toNat < 2048
    · simp [utf8EncodeChar, h1, h2] at hb
      rcases hb with rfl | rfl <;> omega
    · by_cases h3 : c.toNat < 65536
      · simp [utf8EncodeChar, h1, h2, h3] at hb
        rcases hb with rfl | rfl | rfl <;> omega
      · simp [utf8EncodeChar, h1, h2, h3] at hb
        rcases hb with rfl | rfl | rfl | rfl <;> omega

theorem utf8Encode_lt : ∀ s : List Char, ∀ b ∈ utf8Encode s, b < 256 := by
  intro s
  induction s with
  | nil => intro b hb; exact absurd hb (List.not_mem_nil b)
  | cons c s ih =>
    intro b hb
    rcases List.mem_append.mp hb with h | h
    · exact utf8EncodeChar_lt c b h
    · exact ih b h

theorem utf8DecodeOne_encode (c : Char) (rest : List Nat) :
    utf8DecodeOne (utf8EncodeChar c ++ rest) = some (c, rest) := by
  have hv := char_toNat_lt c
  by_cases h1 : c.toNat < 128
  · have he : utf8EncodeChar c = [c.toNat] := by simp [utf8EncodeChar, h1]
    rw [he, List.cons_append, List.nil_append]
    simp only [utf8DecodeOne]
    rw [if_pos h1, Char.ofNat_toNat]
  · by_cases h2 : c.toNat < 2048
    · have he : utf8EncodeChar c = [192 + c.toNat / 64, 128 + c.toNat % 64] := by
        simp [utf8EncodeChar, h1, h2]
      rw [he, List.cons_append, List.cons_append, List.nil_append]
      simp only [utf8DecodeOne]
      rw [if_neg (by omega), if_neg (by omega), if_pos (by omega),
        if_pos (And.intro (by omega) (by omega)),
        show (192 + c.toNat / 64 - 192) * 64 + (128 + c.toNat % 64 - 128)
          = c.toNat from by omega, Char.ofNat_toNat]
    · by_cases h3 : c.toNat < 65536
      · have he : utf8EncodeChar c = [224 + c.toNat / 4096, 128 + c.toNat / 64 % 64,
            128 + c.toNat % 64] := by
          simp [utf8EncodeChar, h1, h2, h3]
        rw [he, List.cons_append, List.cons_append, List.cons_append,
          List.nil_append]
        simp only [utf8DecodeOne]
        rw [if_neg (by omega), if_neg (by omega), if_neg (by omega),
          if_pos (by omega),
          if_pos (And.intro (And.intro (by omega) (by omega))
            (And.intro (by omega) (by omega))),
          show (224 + c.toNat / 4096 - 224) * 4096 +
            (128 + c.toNat / 64 % 64 - 128) * 64 + (128 + c.toNat % 64 - 128)
            = c.toNat from by omega, Char.ofNat_toNat]
      · have he : utf8EncodeChar c = [240 + c.toNat / 262144,
            128 + c.toNat / 4096 % 64, 128 + c.toNat / 64 % 64,
            128 + c.toNat % 64] := by
          simp [utf8EncodeChar, h1, h2, h3]
        rw [he, List.cons_append, List.cons_append, List.cons_append,
          List.cons_append, List.nil_append]
        simp only [utf8DecodeOne]
        rw [if_neg (by omega), if_neg (by omega), if_neg (by omega),
          if_neg (by omega),
          if_pos (And.intro (And.intro (by omega) (by omega))
            (And.intro (And.intro (by omega) (by omega))
              (And.intro (by omega) (by omega)))),
          show (240 + c.toNat / 262144 - 240) * 262144 +
            (128 + c.toNat / 4096 % 64 - 128) * 4096 +
            (128 + c.toNat / 64 % 64 - 128) * 64 + (128 + c.toNat % 64 - 128)
            = c.toNat from by omega, Char.ofNat_toNat]

theorem utf8EncodeChar_ne_nil (c : Char) : utf8EncodeChar c ≠ [] := by
  simp only [utf8EncodeChar]
  split_ifs <;> simp

theorem utf8DecodeAux_encode : ∀ (s : List Char) (fuel : Nat),
    (utf8Encode s).length ≤ fuel → utf8DecodeAux fuel (utf8Encode s) = some s := by
  intro s
  induction s with
  | nil => intro fuel _; cases fuel <;> rfl
  | cons c s ih =>
    intro fuel hlen
    cases hec : utf8EncodeChar c with
    | nil => exact absurd hec (utf8EncodeChar_ne_nil c)
    | cons b tl =>
      have hpos : 1 ≤ (utf8Encode (c :: s)).length := by
        show 1 ≤ (utf8EncodeChar c ++ utf8Encode s).length
        rw [hec]
        simp
      cases fuel with
      | zero => omega
      | succ f =>
        have hrest : (utf8Encode s).length ≤ f := by
          have : (utf8Encode (c :: s)).length =
              (utf8EncodeChar c).length + (utf8Encode s).length := by
            show (utf8EncodeChar c ++ utf8Encode s).length = _
            simp
          rw [hec] at this
          simp at this
          omega
        show utf8DecodeAux (f + 1) (utf8EncodeChar c ++ utf8Encode s) = some (c :: s)
        rw [hec, List.cons_append]
        simp only [utf8DecodeAux]
        rw [← List.cons_append, ← hec, utf8DecodeOne_encode c (utf8Encode s)]
        simp only [Option.some_bind]
        rw [ih f hrest]
        rfl

theorem utf8Decode_utf8Encode : ∀ s : List Char,
    utf8Decode (utf8Encode s) = some s := by
  intro s
  exact utf8DecodeAux_encode s (utf8Encode s).length (le_refl _)

theorem utf8Encode_inj : ∀ s1 s2 : List Char,
    utf8Encode s1 = utf8Encode s2 → s1 = s2 := by
  intro s1 s2 h
  have h1 := utf8Decode_utf8Encode s1
  rw [h, utf8Decode_utf8Encode s2] at h1
  exact (Option.some_inj.mp h1).symm

/-! ## Decimal rendering correctness -/

theorem digit_char_toNat : ∀ d, d < 10 → (Char.ofNat (48 + d)).toNat = 48 + d := by
  decide

theorem digit_char_bounds : ∀ d, d < 10 →
    48 ≤ (Char.ofNat (48 + d)).toNat ∧ (Char.ofNat (48 + d)).toNat ≤ 57 := by
  decide

theorem natReprAux_digits : ∀ fuel n, n < fuel →
    ∀ c ∈ natReprAux fuel n, 48 ≤ c.toNat ∧ c.toNat ≤ 57 := by
  intro fuel
  induction fuel with
  | zero => intro n hn; exact absurd hn (Nat.not_lt_zero n)
  | succ fuel ih =>
    intro n hn c hc
    by_cases h10 : n < 10
    · simp only [natReprAux, if_pos h10, List.mem_singleton] at hc
      subst hc
      exact digit_char_bounds n h10
    · have hdiv : n / 10 < fuel := by
        have := Nat.div_lt_self (show 0 < n by omega) (show 1 < 10 by omega)
        omega
      simp only [natReprAux, if_neg h10, List.mem_append, List.mem_singleton] at hc
      rcases hc with hc | hc
      · exact ih (n / 10) hdiv c hc
      · subst hc
        exact digit_char_bounds (n % 10) (Nat.mod_lt n (by omega))

theorem natReprAux_foldl : ∀ fuel n acc, n < fuel →
    List.foldl (fun acc c => acc * 10 + (c.toNat - 48)) acc (natReprAux fuel n) =
      acc * 10 ^ (natReprAux fuel n).length + n := by
  intro fuel
  induction fuel with
  | zero => intro n acc hn; exact absurd hn (Nat.not_lt_zero n)
  | succ fuel ih =>
    intro n acc hn
    by_cases h10 : n < 10
    · simp only [natReprAux, if_pos h10, List.foldl_cons, List.foldl_nil,
        List.length_singleton, pow_one]
      rw [digit_char_toNat n h10]
      omega
    · have hdiv : n / 10 < fuel := by
        have := Nat.div_lt_self (show 0 < n by omega) (show 1 < 10 by omega)
        omega
      simp only [natReprAux, if_neg h10, List.foldl_append, List.foldl_cons,
        List.foldl_nil, List.length_append, List.length_singleton]
      rw [ih (n / 10) acc hdiv, digit_char_toNat (n % 10) (Nat.mod_lt n (by omega))]
      have hdm := Nat.div_add_mod n 10
      calc (acc * 10 ^ (natReprAux fuel (n / 10)).length + n / 10) * 10 +
            (48 + n % 10 - 48)
          = acc * (10 ^ (natReprAux fuel (n / 10)).length * 10) +
            (10 * (n / 10) + n % 10) := by ring_nf; omega
        _ = acc * 10 ^ ((natReprAux fuel (n / 10)).length + 1) + n := by
            rw [hdm, pow_succ]

def natFromDigits (l : List Char) : Nat :=
  l.foldl (fun acc c => acc * 10 + (c.toNat - 48)) 0

theorem natFromDigits_natRepr (n : Nat) : natFromDigits (natRepr n) = n := by
  have h := natReprAux_foldl (n + 1) n 0 (Nat.lt_succ_self n)
  simpa [natFromDigits, natRepr] using h

theorem natRepr_inj : ∀ a b : Nat, natRepr a = natRepr b → a = b := by
  intro a b h
  have ha := natFromDigits_natRepr a
  rw [h, natFromDigits_natRepr b] at ha
  exact ha.symm

theorem colon_not_mem_natRepr (n : Nat) : ':' ∉ natRepr n := by
  intro hmem
  have h := natReprAux_digits (n + 1) n (Nat.lt_succ_self n) ':' hmem
  have hc : (':').toNat = 58 := rfl
  omega

/-! ## Splitting at the separator -/

theorem append_cons_inj {α : Type _} : ∀ (xs xs' : List α) (c : α) (ys ys' : List α),
    c ∉ xs → c ∉ xs' → xs ++ c :: ys = xs' ++ c :: ys' → xs = xs' ∧ ys = ys' := by
  intro xs
  induction xs with
  | nil =>
    intro xs' c ys ys' _ hc' h
    cases xs' with
    | nil => simpa using h
    | cons a t =>
      simp only [List.nil_append, List.cons_append, List.cons.injEq] at h
      exact absurd (h.1 ▸ List.mem_cons_self a t) hc'
  | cons a t ih =>
    intro xs' c ys ys' hc hc' h
    cases xs' with
    | nil =>
      simp only [List.nil_append, List.cons_append, List.cons.injEq] at h
      exact absurd (h.1 ▸ List.mem_cons_self a t) hc
    | cons a' t' =>
      simp only [List.cons_append, List.cons.injEq] at h
      obtain ⟨rfl, h2⟩ := h
      have hc2 : c ∉ t := fun hm => hc (List.mem_cons_of_mem a hm)
      have hc2' : c ∉ t' := fun hm => hc' (List.mem_cons_of_mem a hm)
      obtain ⟨h3, h4⟩ := ih t' c ys ys' hc2 hc2' h2
      exact ⟨by rw [h3], h4⟩

/-- Splitting at the last colon: unique when neither suffix contains one. -/
theorem append_colon_inj : ∀ (as as' bs bs' : List Char),
    ':' ∉ bs → ':' ∉ bs' → as ++ ':' :: bs = as' ++ ':' :: bs' →
    as = as' ∧ bs = bs' := by
  intro as as' bs bs' hb hb' h
  have hrev : bs.reverse ++ ':' :: as.reverse = bs'.reverse ++ ':' :: as'.reverse := by
    have h2 := congrArg List.reverse h
    simpa [List.reverse_append, List.append_assoc] using h2
  have h1 : ':' ∉ bs.reverse := fun hm => hb (List.mem_reverse.mp hm)
  have h2 : ':' ∉ bs'.reverse := fun hm => hb' (List.mem_reverse.mp hm)
  obtain ⟨hbs, has⟩ := append_cons_inj _ _ _ _ _ h1 h2 hrev
  constructor
  · have h3 := congrArg List.reverse has
    simpa using h3
  · have h3 := congrArg List.reverse hbs
    simpa using h3

/-! ## Token theorems -/

theorem MAGIC_BITS_lt : ∀ b ∈ MAGIC_BITS, b < 256 := by decide

theorem notifBytes_lt (id : String) (u : Nat) : ∀ b ∈ notifBytes id u, b < 256 := by
  intro b hb
  rw [notifBytes] at hb
  rcases List.mem_append.mp hb with h | h
  · exact MAGIC_BITS_lt b h
  · exact utf8Encode_lt _ b h

theorem token_decode (id : String) (u : Nat) :
    b64decode (repad (notification_token id u)) = some (notifBytes id u) := by
  rw [notification_token, repad_stripEq _ (notifBytes_lt id u),
    b64decode_b64encode _ (notifBytes_lt id u)]

theorem token_inj : ∀ (id1 : String) (u1 : Nat) (id2 : String) (u2 : Nat),
    notification_token id1 u1 = notification_token id2 u2 →
    id1 = id2 ∧ u1 = u2 := by
  intro id1 u1 id2 u2 h
  have hdec : some (notifBytes id1 u1) = some (notifBytes id2 u2) := by
    rw [← token_decode, ← token_decode, h]
  have hbytes := Option.some_inj.mp hdec
  rw [notifBytes, notifBytes] at hbytes
  have henc := List.append_cancel_left hbytes
  have hcat := utf8Encode_inj _ _ henc
  obtain ⟨hid, hu⟩ := append_colon_inj _ _ _ _
    (colon_not_mem_natRepr u1) (colon_not_mem_natRepr u2) hcat
  exact ⟨String.ext hid, natRepr_inj _ _ hu⟩

/-! ## Report helper lemmas -/

theorem mapMOpt_eq_none {α β : Type _} (f : α → Option β) :
    ∀ l : List α, (∃ x ∈ l, f x = none) → mapMOpt f l = none := by
  intro l
  induction l with
  | nil =>
    rintro ⟨x, hx, _⟩
    exact absurd hx (List.not_mem_nil x)
  | cons y ys ih =>
    rintro ⟨x, hx, hfx⟩
    rcases List.mem_cons.mp hx with rfl | hx2
    · simp only [mapMOpt, hfx]
    · cases hfy : f y with
      | none => simp only [mapMOpt, hfy]
      | some b => simp only [mapMOpt, hfy, ih ⟨x, hx2, hfx⟩]

/-- An overwrite-in-a-loop keeps the LAST matching element. -/
theorem foldl_closing : ∀ (items : List CrossRef) (acc : Option (Nat × String)),
    items.foldl
      (fun acc item =>
        if item.willCloseTarget then some (item.sourceNumber, item.sourceUrl)
        else acc)
      acc =
    ((items.filter (fun i => i.willCloseTarget)).getLast?).elim acc
      (fun i => some (i.sourceNumber, i.sourceUrl)) := by
  intro items
  induction items with
  | nil => intro acc; rfl
  | cons i rest ih =>
    intro acc
    simp only [List.foldl_cons, List.filter_cons]
    by_cases hp : i.willCloseTarget = true
    · rw [if_pos hp, if_pos hp, ih]
      cases hfr : rest.filter (fun i => i.willCloseTarget) with
      | nil => simp
      | cons y ys =>
        rw [List.getLast?_cons_cons]
        have hys : (y :: ys).getLast?.isSome = true :=
          List.getLast?_isSome.mpr (by simp)
        obtain ⟨z, hz⟩ := Option.isSome_iff_exists.mp hys
        rw [hz]
        rfl
    · rw [if_neg hp, if_neg hp, ih]

/-- The two derived-field equations of `report_assigned`'s first loop. -/
theorem closing_pr_eq : ∀ row : AssignedRow,
    (∀ items, row.timelineItems = some items →
      closing_pr row =
        ((items.filter (fun i => i.willCloseTarget)).getLast?).map
          (fun i => (i.sourceNumber, i.sourceUrl))) ∧
    (row.timelineItems = none → closing_pr row = none) := by
  intro row
  constructor
  · intro items hti
    simp only [closing_pr, hti]
    rw [foldl_closing]
    cases (items.filter (fun i => i.willCloseTarget)).getLast? <;> rfl
  · intro hti
    simp only [closing_pr, hti]

/-! ## Concrete rows used by the claim theorems -/

def exClosingRow : AssignedRow :=
  ⟨11, "r", "closing", "u-close", "2024-01-03T00:00:00Z", ["x"],
    some [⟨true, 7, "u7"⟩]⟩

def exBlockedRow : AssignedRow :=
  ⟨12, "r", "blocked", "u-block", "2024-01-02T00:00:00Z", ["blocked-on-design"],
    some []⟩

def exPlainRow : AssignedRow :=
  ⟨13, "r", "plain", "u-plain", "2024-01-01T00:00:00Z", ["x"], some []⟩

def exTwoCloseRow : AssignedRow :=
  ⟨21, "r", "t", "u", "2024-01-01T00:00:00Z", [],
    some [⟨true, 1, "u1"⟩, ⟨true, 2, "u2"⟩]⟩

def exOkPr : PrRow :=
  ⟨1, "r", "t", "u", "branch", "2024-01-01T00:00:00Z", false, "MERGEABLE",
    none, [some "SUCCESS"], [], []⟩

def exLaterPr : PrRow :=
  ⟨2, "r", "t2", "u2", "branch2", "2024-02-02T00:00:00Z", false, "MERGEABLE",
    none, [some "SUCCESS"], [], []⟩

def exDraftApprovedPr : PrRow :=
  ⟨3, "r", "t", "u", "b", "2024-01-01T00:00:00Z", true, "MERGEABLE",
    some "APPROVED", [some "SUCCESS"], [], []⟩

def exBadPr : PrRow :=
  ⟨4, "r", "t", "u", "b", "2024-01-01T00:00:00Z", false, "CONFLICTING",
    none, [], [], []⟩

def exNotifA : NotifRow :=
  ⟨"1", "2024-01-01T00:00:00Z", "acme", "r", "T", "u", "PullRequest",
    "review_requested"⟩

def exNotifB : NotifRow :=
  ⟨"2", "2024-02-02T00:00:00Z", "acme", "r", "T2", "u2", "Issue", "mention"⟩

/-! ## Claim theorems -/

/-- C1, counterexample: on a timeline with two `willCloseTarget` events the
code's loop (no `break`) keeps the SECOND one, so `closing_pr` is not taken
from the first such event as claimed. -/
theorem closing_pr_takes_last_not_first :
    closing_pr exTwoCloseRow = some (2, "u2") ∧
      ¬closing_pr exTwoCloseRow = some (1, "u1") := by decide

/-- C1, amended: `closing_pr` is taken from the LAST timeline
cross-reference event with `willCloseTarget` true (source PR number and
url), and is absent when no such event exists or `timelineItems` is
absent. -/
theorem closing_pr_last_spec : ∀ row : AssignedRow,
    (∀ items, row.timelineItems = some items →
      closing_pr row =
        ((items.filter (fun i => i.willCloseTarget)).getLast?).map
          (fun i => (i.sourceNumber, i.sourceUrl))) ∧
    (row.timelineItems = none → closing_pr row = none) :=
  closing_pr_eq

/-- C1, witness: the amended rule evaluated on the two-event row. -/
theorem closing_pr_last_spec_witness :
    closing_pr exTwoCloseRow =
      (([⟨true, 1, "u1"⟩, ⟨true, 2, "u2"⟩] : List CrossRef).filter
        (fun i => i.willCloseTarget)).getLast?.map
        (fun i => (i.sourceNumber, i.sourceUrl)) :=
  (closing_pr_last_spec exTwoCloseRow).1 [⟨true, 1, "u1"⟩, ⟨true, 2, "u2"⟩] rfl

/-- C2, counterexample: a draft PR with `reviewDecision = "APPROVED"` gets
review status "✅", not "" — the draft check does not short-circuit. -/
theorem review_status_draft_overridden :
    exDraftApprovedPr.isDraft = true ∧
      review_status exDraftApprovedPr = "✅" ∧
      ¬review_status exDraftApprovedPr = "" := by decide

/-- C2, amended: `isDraft` only selects the fall-through value ("" instead
of "❔"); the decision / latest-review / review-request logic still applies
to drafts: "✅" when `reviewDecision = "APPROVED"`; otherwise with no review
"🟡" when a review request is outstanding and the fall-through otherwise;
otherwise "✅"/"❌" by the latest review's state, the fall-through for any
other state. -/
theorem review_status_spec_amended : ∀ row : PrRow,
    (row.reviewDecision = some "APPROVED" → review_status row = "✅") ∧
    (¬row.reviewDecision = some "APPROVED" → row.latestReviews = [] →
      ¬row.reviewRequests = [] → review_status row = "🟡") ∧
    (¬row.reviewDecision = some "APPROVED" → row.latestReviews = [] →
      row.reviewRequests = [] →
      review_status row = (if row.isDraft then "" else "❔")) ∧
    (∀ st rest, ¬row.reviewDecision = some "APPROVED" →
      row.latestReviews = st :: rest →
      review_status row =
        (if st = "APPROVED" then "✅"
         else if st = "CHANGES_REQUESTED" then "❌"
         else if row.isDraft then "" else "❔")) := by
  intro row
  refine ⟨?_, ?_, ?_, ?_⟩
  · intro hd
    simp only [review_status]
    rw [if_pos hd]
  · intro hd hrev hreq
    have hlen : row.reviewRequests.length ≠ 0 :=
      fun h0 => hreq (List.length_eq_zero.mp h0)
    simp only [review_status, if_neg hd, hrev, if_pos hlen]
  · intro hd hrev hreq
    have hlen : ¬row.reviewRequests.length ≠ 0 :=
      fun hne => hne (by rw [hreq]; rfl)
    simp only [review_status, if_neg hd, hrev, if_neg hlen]
  · intro st rest hd hlr
    simp only [review_status, if_neg hd, hlr]

/-- C2, witness: the amended rule applied to the draft-approved row. -/
theorem review_status_spec_amended_witness :
    review_status exDraftApprovedPr = "✅" :=
  (review_status_spec_amended exDraftApprovedPr).1 (by decide)

/-- C3: with the rollup state present, `ci_status` is "❌" whenever
`mergeable ≠ "MERGEABLE"` regardless of the rollup value; otherwise "🟡" on
`PENDING`, "❌" on any state other than `SUCCESS`, else "✅". -/
theorem ci_status_spec : ∀ (row : PrRow) (st : String),
    rolledupStatus row = some st →
    (¬row.mergeable = "MERGEABLE" → ci_status row = some "❌") ∧
    (row.mergeable = "MERGEABLE" → st = "PENDING" → ci_status row = some "🟡") ∧
    (row.mergeable = "MERGEABLE" → ¬st = "PENDING" → ¬st = "SUCCESS" →
      ci_status row = some "❌") ∧
    (row.mergeable = "MERGEABLE" → st = "SUCCESS" → ci_status row = some "✅") := by
  intro row st h
  refine ⟨?_, ?_, ?_, ?_⟩
  · intro hm
    simp only [ci_status, h]
    rw [if_pos hm]
  · intro hm hst
    simp only [ci_status, h]
    rw [if_neg (fun hq => hq hm), if_pos hst]
  · intro hm hp hs
    simp only [ci_status, h]
    rw [if_neg (fun hq => hq hm), if_neg hp, if_pos hs]
  · intro hm hs
    subst hs
    simp only [ci_status, h]
    rw [if_neg (fun hq => hq hm), if_neg (by decide), if_neg (fun hq => hq rfl)]

/-- C3, witness: a mergeable PR with a successful rollup renders "✅". -/
theorem ci_status_spec_witness : ci_status exOkPr = some "✅" :=
  (ci_status_spec exOkPr "SUCCESS" rfl).2.2.2 rfl rfl

/-- C4: the tracking token is a function of `(notification id, viewer id)`;
re-padding and base64-decoding it yields exactly the fixed 8-byte magic
followed by the UTF-8 bytes of `"<id>:<decimal viewer id>"`, and the
construction is injective on distinct pairs. -/
theorem tracking_token_spec :
    (∀ (id : String) (u : Nat),
      b64decode (repad (notification_token id u)) =
        some (MAGIC_BITS ++ utf8Encode (id.data ++ ':' :: natRepr u))) ∧
    (∀ (id1 : String) (u1 : Nat) (id2 : String) (u2 : Nat),
      notification_token id1 u1 = notification_token id2 u2 →
      id1 = id2 ∧ u1 = u2) := by
  constructor
  · intro id u
    simpa [notifBytes] using token_decode id u
  · exact token_inj

/-- C4, witness: injectivity applied at a concrete coincident pair. -/
theorem tracking_token_spec_witness : ("123" : String) = "123" ∧ (42 : Nat) = 42 :=
  tracking_token_spec.2 "123" 42 "123" 42 rfl

/-- C5: `report_assigned` emits rows in ascending order of the composite
key (closing_pr absent, not blocked, updatedAt) — rows with a closing PR
first, then blocked rows, then the rest, chronologically inside each group —
and on the three-row example the order is closing-PR, blocked, plain. -/
theorem report_assigned_order_spec :
    (∀ rows : List AssignedRow,
      List.Pairwise (fun a b => assignedLe a b = true) (report_assigned rows) ∧
      (report_assigned rows).Perm (rows.map augment)) ∧
    report_assigned [exPlainRow, exBlockedRow, exClosingRow] =
      [augment exClosingRow, augment exBlockedRow, augment exPlainRow] := by
  constructor
  · intro rows
    exact ⟨stableSort_sorted assignedLe_trans assignedLe_total _,
      stableSort_perm _ _⟩
  · decide

/-- C6: a notification row is emitted iff its repository owner login is in
the organization filter set; the empty filter set emits nothing. -/
theorem report_notifications_filter_spec :
    (∀ (rows : List NotifRow) (orgs : List String) (r : NotifRow),
      r ∈ (report_notifications rows orgs).2 ↔ r ∈ rows ∧ r.ownerLogin ∈ orgs) ∧
    (∀ rows : List NotifRow, (report_notifications rows []).2 = []) := by
  constructor
  · intro rows orgs r
    simp only [report_notifications]
    rw [List.mem_filter]
    constructor
    · rintro ⟨hmem, hdec⟩
      exact ⟨(stableSort_perm notifLe rows).mem_iff.mp hmem,
        of_decide_eq_true hdec⟩
    · rintro ⟨hmem, hin⟩
      exact ⟨(stableSort_perm notifLe rows).mem_iff.mpr hmem,
        decide_eq_true hin⟩
  · intro rows
    simp only [report_notifications]
    rw [List.filter_eq_nil_iff]
    intro a _
    simp

/-- C7: the rows `report_notifications` emits are sorted non-decreasing by
`updated_at`: the list is sorted before filtering and filtering preserves
the order. -/
theorem report_notifications_sorted_spec :
    ∀ (rows : List NotifRow) (orgs : List String),
      List.Pairwise (fun a b : NotifRow => a.updated_at ≤ b.updated_at)
        (report_notifications rows orgs).2 := by
  intro rows orgs
  have hs := stableSort_sorted notifLe_trans notifLe_total rows
  simp only [report_notifications]
  have hsub := List.filter_sublist (p := fun row => decide (row.ownerLogin ∈ orgs))
    (stableSort notifLe rows)
  refine List.Pairwise.imp ?_ (List.Pairwise.sublist hsub hs)
  intro a b hab
  exact strLe_iff.mp hab

/-- C8, counterexample: a helper run with exit code 0 and empty output is
accepted and the run proceeds with an EMPTY bearer token — the code only
asserts the return code. -/
theorem getToken_empty_output_succeeds :
    getToken 0 "" = some "" ∧ ("" : String).data.length = 0 := by decide

/-- C8, amended: token acquisition aborts exactly when the helper exits
non-zero; on exit code 0 the stripped standard output is used as the
bearer token, which may be empty. -/
theorem getToken_spec_amended :
    (∀ (rc : Int) (s : String), getToken rc s = none ↔ ¬rc = 0) ∧
    (∀ s : String, getToken 0 s = some (pyStrip s)) ∧
    getToken 0 "  tok\n" = some "tok" := by
  refine ⟨?_, ?_, by decide⟩
  · intro rc s
    constructor
    · intro h
      by_cases hrc : rc = 0
      · subst hrc
        simp [getToken] at h
      · exact hrc
    · intro hrc
      simp [getToken, hrc]
  · intro s
    simp [getToken]

/-- C9: the rollup state is read before `mergeable` is examined, so a row
with an empty commit-node list or a null rollup makes the whole table fail,
even when `mergeable ≠ "MERGEABLE"` alone would decide the icon. -/
theorem report_open_prs_rollup_error_spec :
    ∀ (rows : List PrRow) (row : PrRow), row ∈ rows →
    (row.commits = [] ∨ row.commits.head? = some none) →
    ci_status row = none ∧ (report_open_prs rows).2 = none := by
  intro rows row hmem hbad
  have hci : ci_status row = none := by
    rcases hbad with h | h
    · simp [ci_status, rolledupStatus, h]
    · cases hc : row.commits with
      | nil => simp [ci_status, rolledupStatus, hc]
      | cons c cs =>
        rw [hc] at h
        simp only [List.head?_cons, Option.some.injEq] at h
        subst h
        simp [ci_status, rolledupStatus, hc]
  refine ⟨hci, ?_⟩
  simp only [report_open_prs]
  apply mapMOpt_eq_none
  refine ⟨row, (stableSort_perm prLe rows).mem_iff.mpr hmem, ?_⟩
  simp [prRender, hci]

/-- C9, witness: a conflicting PR whose commit node list is empty still
errors instead of rendering "❌". -/
theorem report_open_prs_rollup_error_spec_witness :
    ci_status exBadPr = none ∧ (report_open_prs [exBadPr]).2 = none :=
  report_open_prs_rollup_error_spec [exBadPr] exBadPr
    (List.mem_singleton.mpr rfl) (Or.inl rfl)

/-- C10: every report function changes its argument: the two sorters leave
the caller's list reordered (shown on unsorted two-element inputs), and
`report_assigned` stores `closing_pr` and `blocked` into every row it
receives, besides reordering the list. -/
theorem report_mutation_spec :
    ((report_notifications [exNotifB, exNotifA] []).1 ≠ [exNotifB, exNotifA]) ∧
    ((report_open_prs [exLaterPr, exOkPr]).1 ≠ [exLaterPr, exOkPr]) ∧
    (∀ rows : List AssignedRow,
      (report_assigned rows).Perm (rows.map augment) ∧
      ∀ a ∈ report_assigned rows,
        a.closing_pr = closing_pr a.row ∧ a.blocked = blocked a.row) ∧
    (report_assigned [exPlainRow, exBlockedRow, exClosingRow] ≠
      [exPlainRow, exBlockedRow, exClosingRow].map augment) := by
  refine ⟨by decide, by decide, ?_, by decide⟩
  intro rows
  refine ⟨stableSort_perm _ _, ?_⟩
  intro a ha
  have hmap : a ∈ rows.map augment :=
    (stableSort_perm assignedLe (rows.map augment)).mem_iff.mp ha
  obtain ⟨r, _, rfl⟩ := List.mem_map.mp hmap
  exact ⟨rfl, rfl⟩

/-- C10, witness: the derived keys of the closing row after the call. -/
theorem report_mutation_spec_witness :
    (augment exClosingRow).closing_pr = closing_pr exClosingRow ∧
      (augment exClosingRow).blocked = blocked exClosingRow :=
  (report_mutation_spec.2.2.1 [exClosingRow]).2 (augment exClosingRow) (by decide)

end GithubStatus
